import Mathlib

/-!
Verification of the expense-sharing core of `src/index.tsx`: the balance
computation performed in `SettlementScreen` / `GroupDetail` (called
`computeBalances` in the specification) and the greedy settlement planner
`calculateSettlements` (src/index.tsx:65-88).

Numbers are modelled by `ℚ`; JavaScript objects keyed by member id are
modelled by association lists in insertion order, which matches the
iteration order of string-keyed JS objects.
-/

/-- A group member: `{ id, name }`. -/
structure Member where
  id : String
  name : String
deriving DecidableEq

/-- The `splitType` field of an expense: `'equal'` or `'unequal'`. -/
inductive SplitType where
  | equal
  | unequal
deriving DecidableEq

/-- One entry of an expense's `splits` array: `{ memberId, amount }`. -/
structure Split where
  memberId : String
  amount : ℚ
deriving DecidableEq

/-- An expense as read by the balance computation: `{ id, paidBy, amount,
splitType, splits }` (an absent `splits` field is modelled by `[]`, which the
code treats identically via the `splits?.length > 0` test). -/
structure Expense where
  id : String
  paidBy : String
  amount : ℚ
  splitType : SplitType
  splits : List Split
deriving DecidableEq

/-- A value of the `memberBalances` object and of the returned balance list:
`{ id, name, balance }`. -/
structure MemberBal where
  id : String
  name : String
  balance : ℚ
deriving DecidableEq

/-- JS object assignment `obj[v.id] = v`: overwrite the value if the key is
present, otherwise append a new key in insertion order. -/
def objSet (st : List MemberBal) (v : MemberBal) : List MemberBal :=
  if st.any (fun b => b.id = v.id) then
    st.map (fun b => if b.id = v.id then v else b)
  else st ++ [v]

/-- `memberBalances[k].balance += a`, performed only when the key `k` is
present (in the source either guarded by `if (memberBalances[k])` or known
present because `k` is a member id). -/
def bumpBalance (st : List MemberBal) (k : String) (a : ℚ) : List MemberBal :=
  st.map (fun b => if b.id = k then { b with balance := b.balance + a } else b)

/-- The initialisation loop: `memberBalances[member.id] = { id, name, balance: 0 }`
for each member in order (src/index.tsx:332-334). -/
def initBalances (members : List Member) : List MemberBal :=
  members.foldl (fun st m => objSet st ⟨m.id, m.name, 0⟩) []

/-- `if (memberBalances[expense.paidBy]) memberBalances[expense.paidBy].balance += expense.amount`
(src/index.tsx:339-341). -/
def creditPayer (st : List MemberBal) (e : Expense) : List MemberBal :=
  bumpBalance st e.paidBy e.amount

/-- The share-subtraction part of the expense loop (src/index.tsx:343-355):
for an unequal split with a non-empty `splits` array, subtract each split
amount from the named member when known; otherwise subtract
`amount / members.length` from every member. The source's `(split.amount || 0)`
only defaults a missing/NaN amount to 0; with `amount : ℚ` always present it
is the identity. -/
def applyDebits (members : List Member) (st : List MemberBal) (e : Expense) :
    List MemberBal :=
  if e.splitType = SplitType.unequal ∧ 0 < e.splits.length then
    e.splits.foldl (fun s sp => bumpBalance s sp.memberId (-sp.amount)) st
  else
    members.foldl (fun s m => bumpBalance s m.id (-(e.amount / (members.length : ℚ)))) st

/-- One iteration of the expense loop: credit the payer, then subtract shares. -/
def applyExpense (members : List Member) (st : List MemberBal) (e : Expense) :
    List MemberBal :=
  applyDebits members (creditPayer st e) e

/-- The balance computation of `SettlementScreen` (src/index.tsx:330-357),
identically duplicated in `GroupDetail` (src/index.tsx:1070-1097); the
specification names it `computeBalances`. Returns `[]` for an empty member
list, otherwise folds the expense loop over the initial zero balances and
returns `Object.values(memberBalances)`, i.e. the values in insertion order. -/
def computeBalances (members : List Member) (expenses : List Expense) :
    List MemberBal :=
  if members.isEmpty then []
  else expenses.foldl (applyExpense members) (initBalances members)

/-- A settlement entry as pushed by `calculateSettlements`
(src/index.tsx:74-78): the debtor and creditor records (of which only the
identifying fields are ever read) and the transferred amount. -/
structure Settlement where
  fromId : String
  fromName : String
  toId : String
  toName : String
  amount : ℚ
deriving DecidableEq

/-- Stable insertion into an ascending run, placing the new element after
existing elements with an equal or smaller balance — the behaviour of the
stable `sort((a, b) => a.balance - b.balance)` (src/index.tsx:66). -/
def insertAsc (x : MemberBal) : List MemberBal → List MemberBal
  | [] => [x]
  | y :: ys => if y.balance ≤ x.balance then y :: insertAsc x ys else x :: y :: ys

/-- Stable ascending sort by balance. -/
def sortAsc (l : List MemberBal) : List MemberBal :=
  l.foldl (fun acc x => insertAsc x acc) []

/-- Stable insertion into a descending run — the behaviour of the stable
`sort((a, b) => b.balance - a.balance)` (src/index.tsx:67). -/
def insertDesc (x : MemberBal) : List MemberBal → List MemberBal
  | [] => [x]
  | y :: ys => if x.balance ≤ y.balance then y :: insertDesc x ys else x :: y :: ys

/-- Stable descending sort by balance. -/
def sortDesc (l : List MemberBal) : List MemberBal :=
  l.foldl (fun acc x => insertDesc x acc) []

/-- The `while (debtors.length > 0 && creditors.length > 0)` loop of
`calculateSettlements` (src/index.tsx:70-87), written with explicit fuel:
take the extreme debtor and creditor, transfer `min(-debtor.balance,
creditor.balance)`, emit the entry, and drop either party whose updated
balance lands within `0.01` of zero. Supplying fuel
`debtors.length + creditors.length` is proved sufficient below. -/
def settleLoop : Nat → List MemberBal → List MemberBal → List Settlement
  | 0, _, _ => []
  | _ + 1, [], _ => []
  | _ + 1, _ :: _, [] => []
  | fuel + 1, d :: ds, c :: cs =>
    let amount := min (-d.balance) c.balance
    let d2 : MemberBal := { d with balance := d.balance + amount }
    let c2 : MemberBal := { c with balance := c.balance - amount }
    let ds2 := if |d2.balance| < 1 / 100 then ds else d2 :: ds
    let cs2 := if |c2.balance| < 1 / 100 then cs else c2 :: cs
    ⟨d.id, d.name, c.id, c.name, amount⟩ :: settleLoop fuel ds2 cs2

/-- `calculateSettlements` (src/index.tsx:65-89): partition the balances into
debtors (`balance < 0`, sorted ascending) and creditors (`balance > 0`,
sorted descending) and run the matching loop. -/
def calculateSettlements (balances : List MemberBal) : List Settlement :=
  let debtors := sortAsc (balances.filter (fun m => m.balance < 0))
  let creditors := sortDesc (balances.filter (fun m => 0 < m.balance))
  settleLoop (debtors.length + creditors.length) debtors creditors

/-- Sum of the balance amounts of a list. -/
def sumBalances (l : List MemberBal) : ℚ :=
  (l.map MemberBal.balance).sum

/-- The effect of one settlement entry on the balance of member `i`, in the
direction the code uses (`debtor.balance += amount; creditor.balance -= amount`,
src/index.tsx:81-82): the payer's balance rises, the receiver's falls. -/
def entryDelta (e : Settlement) (i : String) : ℚ :=
  if i = e.fromId then e.amount else if i = e.toId then -e.amount else 0

/-- Net effect of a list of settlement entries on the balance of member `i`. -/
def netAmount (entries : List Settlement) (i : String) : ℚ :=
  (entries.map (fun e => entryDelta e i)).sum

/-- Apply one settlement entry to a balance list in the code's direction:
add the amount to the payer, subtract it from the receiver. -/
def applyEntry (bs : List MemberBal) (e : Settlement) : List MemberBal :=
  bs.map (fun b =>
    if b.id = e.fromId then { b with balance := b.balance + e.amount }
    else if b.id = e.toId then { b with balance := b.balance - e.amount }
    else b)

/-- Apply a list of settlement entries in order, in the code's direction. -/
def applyEntries (entries : List Settlement) (bs : List MemberBal) :
    List MemberBal :=
  entries.foldl applyEntry bs

/-- Apply one settlement entry in the direction the specification's wording
describes ("from" balance decreases, "to" balance increases). -/
def applyEntrySpec (bs : List MemberBal) (e : Settlement) : List MemberBal :=
  bs.map (fun b =>
    if b.id = e.fromId then { b with balance := b.balance - e.amount }
    else if b.id = e.toId then { b with balance := b.balance + e.amount }
    else b)

/-- Apply a list of settlement entries in order, in the specification's
stated direction. -/
def applyEntriesSpec (entries : List Settlement) (bs : List MemberBal) :
    List MemberBal :=
  entries.foldl applyEntrySpec bs

/-! ## Basic lemmas about the balance accumulator -/

theorem sumBalances_nil : sumBalances [] = 0 := rfl

theorem sumBalances_cons (b : MemberBal) (l : List MemberBal) :
    sumBalances (b :: l) = b.balance + sumBalances l := rfl

theorem bumpBalance_idname (st : List MemberBal) (k : String) (a : ℚ) :
    (bumpBalance st k a).map (fun b => (b.id, b.name)) =
      st.map (fun b => (b.id, b.name)) := by
  induction st with
  | nil => rfl
  | cons b l ih =>
      by_cases h : b.id = k <;>
        simp [bumpBalance, h] <;> simpa [bumpBalance] using ih

theorem bumpBalance_ids (st : List MemberBal) (k : String) (a : ℚ) :
    (bumpBalance st k a).map MemberBal.id = st.map MemberBal.id := by
  induction st with
  | nil => rfl
  | cons b l ih =>
      by_cases h : b.id = k <;>
        simp [bumpBalance, h] <;> simpa [bumpBalance] using ih

theorem bumpBalance_of_not_mem (st : List MemberBal) (k : String) (a : ℚ)
    (h : ∀ b ∈ st, b.id ≠ k) : bumpBalance st k a = st := by
  induction st with
  | nil => rfl
  | cons b l ih =>
      have hb : b.id ≠ k := h b (List.mem_cons_self b l)
      simp only [bumpBalance, List.map_cons, if_neg hb]
      have := ih (fun x hx => h x (List.mem_cons_of_mem b hx))
      simpa [bumpBalance] using this

theorem bumpBalance_sum_of_mem (st : List MemberBal) (k : String) (a : ℚ)
    (hnd : (st.map MemberBal.id).Nodup) (hk : k ∈ st.map MemberBal.id) :
    sumBalances (bumpBalance st k a) = sumBalances st + a := by
  induction st with
  | nil => simp at hk
  | cons b l ih =>
      simp only [List.map_cons, List.nodup_cons] at hnd
      by_cases h : b.id = k
      · have hrest : ∀ x ∈ l, x.id ≠ k := by
          intro x hx hxk
          have : b.id ∈ l.map MemberBal.id := by
            rw [h, ← hxk]
            exact List.mem_map_of_mem MemberBal.id hx
          exact hnd.1 this
        simp only [bumpBalance, List.map_cons, if_pos h]
        rw [show (l.map fun x =>
            if x.id = k then { x with balance := x.balance + a } else x) =
            bumpBalance l k a from rfl, bumpBalance_of_not_mem l k a hrest]
        simp [sumBalances_cons]
        ring
      · have hk' : k ∈ l.map MemberBal.id := by
          rcases List.mem_cons.mp hk with h1 | h1
          · exact absurd h1.symm h
          · exact h1
        simp only [bumpBalance, List.map_cons, if_neg h]
        rw [show (l.map fun x =>
            if x.id = k then { x with balance := x.balance + a } else x) =
            bumpBalance l k a from rfl]
        simp only [sumBalances_cons, ih hnd.2 hk']
        ring

theorem sumBalances_zero_of_all_zero (l : List MemberBal)
    (h : ∀ b ∈ l, b.balance = 0) : sumBalances l = 0 := by
  induction l with
  | nil => rfl
  | cons b t ih =>
      rw [sumBalances_cons, h b (List.mem_cons_self b t),
        ih (fun x hx => h x (List.mem_cons_of_mem b hx)), add_zero]

/-! ## The initial accumulator and identity preservation -/

theorem objSet_append_of_not_any (st : List MemberBal) (v : MemberBal)
    (h : st.any (fun b => b.id = v.id) = false) : objSet st v = st ++ [v] := by
  simp [objSet, h]

theorem initBalances_eq_of_nodup (members : List Member)
    (hnd : (members.map Member.id).Nodup) :
    initBalances members = members.map (fun m => ⟨m.id, m.name, 0⟩) := by
  suffices h : ∀ (ms : List Member) (st : List MemberBal),
      (∀ b ∈ st, ∀ m ∈ ms, b.id ≠ m.id) → (ms.map Member.id).Nodup →
      ms.foldl (fun s m => objSet s ⟨m.id, m.name, 0⟩) st =
        st ++ ms.map (fun m => ⟨m.id, m.name, 0⟩) by
    have := h members [] (by intro b hb; simp at hb) hnd
    simpa [initBalances] using this
  intro ms
  induction ms with
  | nil => intro st _ _; simp
  | cons m t ih =>
      intro st hdisj hnd
      simp only [List.map_cons, List.nodup_cons] at hnd
      have hany : st.any (fun b => b.id = (⟨m.id, m.name, 0⟩ : MemberBal).id) =
          false := by
        simp only [List.any_eq_false, decide_eq_true_eq]
        intro b hb
        exact hdisj b hb m (List.mem_cons_self m t)
      simp only [List.foldl_cons,
        objSet_append_of_not_any st ⟨m.id, m.name, 0⟩ hany]
      rw [ih (st ++ [(⟨m.id, m.name, 0⟩ : MemberBal)])
        (by
          intro b hb m' hm'
          rcases List.mem_append.mp hb with h1 | h1
          · exact hdisj b h1 m' (List.mem_cons_of_mem m hm')
          · simp only [List.mem_singleton] at h1
            subst h1
            intro hc
            apply hnd.1
            have hmm : m.id = m'.id := hc
            rw [hmm]
            exact List.mem_map_of_mem Member.id hm')
        hnd.2]
      simp

theorem mem_ids_objSet (st : List MemberBal) (v : MemberBal) (i : String) :
    i ∈ (objSet st v).map MemberBal.id ↔
      i ∈ st.map MemberBal.id ∨ i = v.id := by
  simp only [objSet]
  by_cases h : st.any (fun b => b.id = v.id)
  · rw [if_pos h]
    simp only [List.any_eq_true, decide_eq_true_eq] at h
    rcases h with ⟨w, hw, hwv⟩
    constructor
    · intro hi
      rcases List.mem_map.mp hi with ⟨x, hx, hxi⟩
      rcases List.mem_map.mp hx with ⟨y, hy, hyx⟩
      by_cases hyv : y.id = v.id
      · right; rw [← hxi, ← hyx]; simp [if_pos hyv]
      · left; rw [← hxi, ← hyx]; simp only [if_neg hyv]
        exact List.mem_map_of_mem MemberBal.id hy
    · intro hi
      rcases hi with hi | hi
      · rcases List.mem_map.mp hi with ⟨y, hy, hyi⟩
        by_cases hyv : y.id = v.id
        · subst hyi
          refine List.mem_map.mpr ⟨v, ?_, (hyv).symm ▸ rfl⟩
          refine List.mem_map.mpr ⟨y, hy, by simp [if_pos hyv]⟩
        · subst hyi
          refine List.mem_map.mpr ⟨y, ?_, rfl⟩
          refine List.mem_map.mpr ⟨y, hy, by simp [if_neg hyv]⟩
      · subst hi
        refine List.mem_map.mpr ⟨v, ?_, rfl⟩
        refine List.mem_map.mpr ⟨w, hw, by simp [if_pos hwv]⟩
  · rw [if_neg h]
    simp [or_comm]

theorem mem_ids_initBalances (members : List Member) (i : String) :
    i ∈ (initBalances members).map MemberBal.id ↔ i ∈ members.map Member.id := by
  suffices h : ∀ (ms : List Member) (st : List MemberBal),
      i ∈ ((ms.foldl (fun s m => objSet s ⟨m.id, m.name, 0⟩) st).map MemberBal.id) ↔
        i ∈ st.map MemberBal.id ∨ i ∈ ms.map Member.id by
    have := h members []
    simpa [initBalances] using this
  intro ms
  induction ms with
  | nil => intro st; simp
  | cons m t ih =>
      intro st
      simp only [List.foldl_cons, ih, mem_ids_objSet, List.map_cons,
        List.mem_cons]
      tauto

theorem ids_nodup_objSet (st : List MemberBal) (v : MemberBal)
    (h : (st.map MemberBal.id).Nodup) : ((objSet st v).map MemberBal.id).Nodup := by
  simp only [objSet]
  by_cases hc : st.any (fun b => b.id = v.id)
  · rw [if_pos hc]
    have : ((st.map fun b => if b.id = v.id then v else b).map MemberBal.id) =
        st.map MemberBal.id := by
      simp only [List.map_map]
      refine List.map_congr_left ?_
      intro b _
      by_cases hb : b.id = v.id <;> simp [hb]
    rw [this]; exact h
  · rw [if_neg hc]
    simp only [Bool.not_eq_true, List.any_eq_false, decide_eq_true_eq] at hc
    simp only [List.map_append, List.map_cons, List.map_nil]
    rw [List.nodup_append]
    refine ⟨h, List.nodup_singleton _, ?_⟩
    intro x hx
    rcases List.mem_map.mp hx with ⟨b, hb, hbx⟩
    simp only [List.mem_singleton]
    intro hxv
    exact hc b hb (by rw [← hbx] at hxv; exact hxv)

theorem ids_nodup_initBalances (members : List Member) :
    ((initBalances members).map MemberBal.id).Nodup := by
  suffices h : ∀ (ms : List Member) (st : List MemberBal),
      (st.map MemberBal.id).Nodup →
      ((ms.foldl (fun s m => objSet s ⟨m.id, m.name, 0⟩) st).map MemberBal.id).Nodup by
    exact h members [] (by simp)
  intro ms
  induction ms with
  | nil => intro st h; simpa using h
  | cons m t ih =>
      intro st h
      exact ih _ (ids_nodup_objSet st _ h)

theorem initBalances_all_zero (members : List Member) :
    ∀ b ∈ initBalances members, b.balance = 0 := by
  suffices h : ∀ (ms : List Member) (st : List MemberBal),
      (∀ b ∈ st, b.balance = 0) →
      ∀ b ∈ ms.foldl (fun s m => objSet s ⟨m.id, m.name, 0⟩) st, b.balance = 0 by
    exact h members [] (by simp)
  intro ms
  induction ms with
  | nil => intro st h; simpa using h
  | cons m t ih =>
      intro st h
      refine ih _ ?_
      intro b hb
      simp only [objSet] at hb
      by_cases hc : st.any (fun x => x.id = m.id)
      · rw [if_pos hc] at hb
        rcases List.mem_map.mp hb with ⟨x, hx, hxb⟩
        by_cases hxm : x.id = m.id
        · rw [← hxb]; simp [if_pos hxm]
        · rw [← hxb]; simp only [if_neg hxm]; exact h x hx
      · rw [if_neg hc] at hb
        rcases List.mem_append.mp hb with h1 | h1
        · exact h b h1
        · simp only [List.mem_singleton] at h1; rw [h1]

/-- Both phases of the expense loop only touch the `balance` field. -/
theorem applyExpense_idname (members : List Member) (st : List MemberBal)
    (e : Expense) :
    (applyExpense members st e).map (fun b => (b.id, b.name)) =
      st.map (fun b => (b.id, b.name)) := by
  have hfold : ∀ (l : List Split) (s : List MemberBal),
      ((l.foldl (fun s sp => bumpBalance s sp.memberId (-sp.amount)) s).map
        (fun b => (b.id, b.name))) = s.map (fun b => (b.id, b.name)) := by
    intro l
    induction l with
    | nil => intro s; rfl
    | cons sp t ih =>
        intro s
        simp only [List.foldl_cons, ih, bumpBalance_idname]
  have hfoldm : ∀ (l : List Member) (s : List MemberBal) (x : ℚ),
      ((l.foldl (fun s m => bumpBalance s m.id x) s).map
        (fun b => (b.id, b.name))) = s.map (fun b => (b.id, b.name)) := by
    intro l
    induction l with
    | nil => intro s x; rfl
    | cons m t ih =>
        intro s x
        simp only [List.foldl_cons, ih, bumpBalance_idname]
  simp only [applyExpense, applyDebits, creditPayer]
  by_cases hc : e.splitType = SplitType.unequal ∧ 0 < e.splits.length
  · rw [if_pos hc, hfold, bumpBalance_idname]
  · rw [if_neg hc, hfoldm, bumpBalance_idname]

theorem computeBalances_idname (members : List Member) (expenses : List Expense) :
    (computeBalances members expenses).map (fun b => (b.id, b.name)) =
      (if members.isEmpty then [] else initBalances members).map
        (fun b => (b.id, b.name)) := by
  simp only [computeBalances]
  by_cases hm : members.isEmpty
  · simp [hm]
  · rw [if_neg hm, if_neg hm]
    induction expenses using List.reverseRecOn with
    | nil => rfl
    | append_singleton es e ih =>
        rw [List.foldl_append, List.foldl_cons, List.foldl_nil,
          applyExpense_idname, ih]

theorem computeBalances_ids (members : List Member) (expenses : List Expense) :
    (computeBalances members expenses).map MemberBal.id =
      (if members.isEmpty then [] else initBalances members).map MemberBal.id := by
  have h2 := congrArg (List.map Prod.fst) (computeBalances_idname members expenses)
  simpa [List.map_map, Function.comp] using h2

/-! ## Conservation of money -/

theorem foldl_bump_members_sum (ms : List Member) :
    ∀ (st : List MemberBal) (x : ℚ), (st.map MemberBal.id).Nodup →
      (∀ m ∈ ms, m.id ∈ st.map MemberBal.id) →
      sumBalances (ms.foldl (fun s m => bumpBalance s m.id x) st) =
        sumBalances st + ms.length * x := by
  induction ms with
  | nil => intro st x _ _; simp
  | cons m t ih =>
      intro st x hnd hmem
      simp only [List.foldl_cons]
      rw [ih (bumpBalance st m.id x) x
        (by rw [bumpBalance_ids]; exact hnd)
        (by intro m' hm'; rw [bumpBalance_ids]
            exact hmem m' (List.mem_cons_of_mem m hm')),
        bumpBalance_sum_of_mem st m.id x hnd (hmem m (List.mem_cons_self m t))]
      simp only [List.length_cons]
      push_cast
      ring

theorem foldl_bump_splits_sum (sps : List Split) :
    ∀ (st : List MemberBal), (st.map MemberBal.id).Nodup →
      (∀ sp ∈ sps, sp.memberId ∈ st.map MemberBal.id) →
      sumBalances (sps.foldl (fun s sp => bumpBalance s sp.memberId (-sp.amount)) st) =
        sumBalances st - (sps.map Split.amount).sum := by
  induction sps with
  | nil => intro st _ _; simp [sumBalances]
  | cons sp t ih =>
      intro st hnd hmem
      simp only [List.foldl_cons]
      rw [ih (bumpBalance st sp.memberId (-sp.amount))
        (by rw [bumpBalance_ids]; exact hnd)
        (by intro sp' hsp'; rw [bumpBalance_ids]
            exact hmem sp' (List.mem_cons_of_mem sp hsp')),
        bumpBalance_sum_of_mem st sp.memberId (-sp.amount) hnd
          (hmem sp (List.mem_cons_self sp t))]
      simp only [List.map_cons, List.sum_cons]
      ring

theorem applyExpense_sum (members : List Member) (st : List MemberBal)
    (e : Expense) (hm : members ≠ [])
    (hnd : (st.map MemberBal.id).Nodup)
    (hmem : ∀ m ∈ members, m.id ∈ st.map MemberBal.id)
    (hpayer : e.paidBy ∈ st.map MemberBal.id)
    (hsplits : e.splitType = SplitType.unequal → e.splits ≠ [] →
      (∀ sp ∈ e.splits, sp.memberId ∈ st.map MemberBal.id) ∧
        (e.splits.map Split.amount).sum = e.amount) :
    sumBalances (applyExpense members st e) = sumBalances st := by
  have hnd1 : ((creditPayer st e).map MemberBal.id).Nodup := by
    rw [creditPayer, bumpBalance_ids]; exact hnd
  have hsum1 : sumBalances (creditPayer st e) = sumBalances st + e.amount :=
    bumpBalance_sum_of_mem st e.paidBy e.amount hnd hpayer
  simp only [applyExpense, applyDebits]
  by_cases hc : e.splitType = SplitType.unequal ∧ 0 < e.splits.length
  · rw [if_pos hc]
    have hne : e.splits ≠ [] := by
      intro h0
      rw [h0] at hc
      exact absurd hc.2 (by simp)
    obtain ⟨hall, hsum⟩ := hsplits hc.1 hne
    rw [foldl_bump_splits_sum e.splits (creditPayer st e) hnd1
      (by intro sp hsp; rw [creditPayer, bumpBalance_ids]; exact hall sp hsp),
      hsum1, hsum]
    ring
  · rw [if_neg hc]
    rw [foldl_bump_members_sum members (creditPayer st e) _ hnd1
      (by intro m' hm'; rw [creditPayer, bumpBalance_ids]; exact hmem m' hm'),
      hsum1]
    have hlen : (members.length : ℚ) ≠ 0 :=
      Nat.cast_ne_zero.mpr (Nat.pos_iff_ne_zero.mp (List.length_pos.mpr hm))
    field_simp
    ring

theorem sumBalances_computeBalances (members : List Member)
    (expenses : List Expense)
    (hpayer : ∀ e ∈ expenses, e.paidBy ∈ members.map Member.id)
    (hsplits : ∀ e ∈ expenses, e.splitType = SplitType.unequal → e.splits ≠ [] →
      (∀ sp ∈ e.splits, sp.memberId ∈ members.map Member.id) ∧
        (e.splits.map Split.amount).sum = e.amount) :
    sumBalances (computeBalances members expenses) = 0 := by
  by_cases hm : members.isEmpty
  · simp [computeBalances, hm, sumBalances]
  · have hm' : members ≠ [] := by
      intro h; rw [h] at hm; exact hm rfl
    have hmemid : ∀ (es : List Expense), ∀ i, i ∈ members.map Member.id →
        i ∈ (computeBalances members es).map MemberBal.id := by
      intro es i hi
      rw [computeBalances_ids, if_neg hm]
      exact (mem_ids_initBalances members i).mpr hi
    have hndst : ∀ es : List Expense,
        ((computeBalances members es).map MemberBal.id).Nodup := by
      intro es
      rw [computeBalances_ids, if_neg hm]
      exact ids_nodup_initBalances members
    induction expenses using List.reverseRecOn with
    | nil =>
        simp only [computeBalances, if_neg hm, List.foldl_nil]
        exact sumBalances_zero_of_all_zero _ (initBalances_all_zero members)
    | append_singleton es e ih =>
        have hstep : computeBalances members (es ++ [e]) =
            applyExpense members (computeBalances members es) e := by
          simp only [computeBalances, if_neg hm, List.foldl_append,
            List.foldl_cons, List.foldl_nil]
        rw [hstep, applyExpense_sum members _ e hm' (hndst es)
          (fun m' hm'' => hmemid es m'.id (List.mem_map_of_mem Member.id hm''))
          (hmemid es e.paidBy (hpayer e (by simp)))
          (fun h1 h2 => by
            obtain ⟨hall, hsum⟩ := hsplits e (by simp) h1 h2
            exact ⟨fun sp hsp => hmemid es sp.memberId (hall sp hsp), hsum⟩)]
        exact ih (fun e' he' => hpayer e' (List.mem_append_left _ he'))
          (fun e' he' => hsplits e' (List.mem_append_left _ he'))

example :
    computeBalances [⟨"a", "A"⟩, ⟨"b", "B"⟩, ⟨"c", "C"⟩]
      [⟨"e1", "a", 90, SplitType.equal, []⟩] =
    [⟨"a", "A", 60⟩, ⟨"b", "B", -30⟩, ⟨"c", "C", -30⟩] := by
  norm_num +decide [computeBalances, initBalances, objSet, applyExpense,
    applyDebits, creditPayer, bumpBalance]

example :
    calculateSettlements [⟨"a", "A", 60⟩, ⟨"b", "B", -30⟩, ⟨"c", "C", -30⟩] =
    [⟨"b", "B", "a", "A", 30⟩, ⟨"c", "C", "a", "A", 30⟩] := by
  norm_num +decide [calculateSettlements, sortAsc, sortDesc, insertAsc,
    insertDesc, settleLoop]

/-- Claim C1 (amended): conservation holds when every expense's payer is a
current member AND every unequal-split expense with a non-empty split list
names only current members and its split amounts sum to the expense amount;
then the balances returned by `computeBalances` sum to 0 within 1e-6. -/
theorem claim_C1 (members : List Member) (expenses : List Expense)
    (hpayer : ∀ e ∈ expenses, e.paidBy ∈ members.map Member.id)
    (hsplits : ∀ e ∈ expenses, e.splitType = SplitType.unequal → e.splits ≠ [] →
      (∀ sp ∈ e.splits, sp.memberId ∈ members.map Member.id) ∧
        (e.splits.map Split.amount).sum = e.amount) :
    |sumBalances (computeBalances members expenses)| ≤ 1 / 1000000 := by
  rw [sumBalances_computeBalances members expenses hpayer hsplits]
  norm_num

theorem claim_C1_witness :
    |sumBalances (computeBalances [⟨"a", "A"⟩, ⟨"b", "B"⟩]
      [⟨"e1", "a", 100, SplitType.unequal, [⟨"a", 30⟩, ⟨"b", 70⟩]⟩])| ≤
        1 / 1000000 :=
  claim_C1 [⟨"a", "A"⟩, ⟨"b", "B"⟩]
    [⟨"e1", "a", 100, SplitType.unequal, [⟨"a", 30⟩, ⟨"b", 70⟩]⟩]
    (by norm_num +decide)
    (by norm_num +decide)

/-- Claim C1 as stated is false: with members `[a]` and a single unequal
expense paid by `a` of amount 100 whose splits only cover 30, every payer is
a member, yet the balances sum to 70. -/
theorem claim_C1_cex :
    (∀ e ∈ [(⟨"e1", "a", 100, SplitType.unequal, [⟨"a", 30⟩]⟩ : Expense)],
      e.paidBy ∈ ([⟨"a", "A"⟩] : List Member).map Member.id) ∧
    ¬ (|sumBalances (computeBalances [⟨"a", "A"⟩]
        [⟨"e1", "a", 100, SplitType.unequal, [⟨"a", 30⟩]⟩])| ≤ 1 / 1000000) := by
  constructor
  · norm_num +decide
  · norm_num +decide [computeBalances, initBalances, objSet, applyExpense,
      applyDebits, creditPayer, bumpBalance, sumBalances]

/-- Claim C6: for every members list (with the data model's unique ids) and
expense list, `computeBalances` returns exactly one balance per member, in
the members' order, carrying each member's id and name. -/
theorem claim_C6 (members : List Member) (expenses : List Expense)
    (hnd : (members.map Member.id).Nodup) :
    (computeBalances members expenses).map (fun b => (b.id, b.name)) =
      members.map (fun m => (m.id, m.name)) := by
  rw [computeBalances_idname]
  by_cases hm : members.isEmpty
  · rw [if_pos hm]
    rw [List.isEmpty_iff] at hm
    simp [hm]
  · rw [if_neg hm, initBalances_eq_of_nodup members hnd, List.map_map]
    rfl

theorem claim_C6_witness :
    (computeBalances [⟨"a", "A"⟩, ⟨"b", "B"⟩]
        [⟨"e1", "a", 10, SplitType.equal, []⟩]).map (fun b => (b.id, b.name)) =
      [("a", "A"), ("b", "B")] :=
  claim_C6 [⟨"a", "A"⟩, ⟨"b", "B"⟩] [⟨"e1", "a", 10, SplitType.equal, []⟩]
    (by decide)

/-! ## The settlement loop: unfolding and fuel -/

theorem settleLoop_nil_left (f : Nat) (cs : List MemberBal) :
    settleLoop f [] cs = [] := by cases f <;> rfl

theorem settleLoop_nil_right (f : Nat) (ds : List MemberBal) :
    settleLoop f ds [] = [] := by cases f <;> cases ds <;> rfl

theorem settleLoop_succ (f : Nat) (d c : MemberBal) (ds cs : List MemberBal) :
    settleLoop (f + 1) (d :: ds) (c :: cs) =
      ⟨d.id, d.name, c.id, c.name, min (-d.balance) c.balance⟩ ::
        settleLoop f
          (if |d.balance + min (-d.balance) c.balance| < 1 / 100 then ds
           else { d with balance := d.balance + min (-d.balance) c.balance } :: ds)
          (if |c.balance - min (-d.balance) c.balance| < 1 / 100 then cs
           else { c with balance := c.balance - min (-d.balance) c.balance } :: cs) :=
  rfl

/-- The transfer `min(-debtor.balance, creditor.balance)` drives one of the two
updated balances to exactly zero, so each iteration drops at least one party. -/
theorem settleStep_length (d c : MemberBal) (ds cs : List MemberBal) :
    (if |d.balance + min (-d.balance) c.balance| < 1 / 100 then ds
     else { d with balance := d.balance + min (-d.balance) c.balance } :: ds).length +
    (if |c.balance - min (-d.balance) c.balance| < 1 / 100 then cs
     else { c with balance := c.balance - min (-d.balance) c.balance } :: cs).length ≤
    ds.length + cs.length + 1 := by
  rcases le_total (-d.balance) c.balance with h | h
  · rw [min_eq_left h]
    have hd : |d.balance + -d.balance| < (1 : ℚ) / 100 := by norm_num
    rw [if_pos hd]
    split <;> (simp; try omega)
  · rw [min_eq_right h]
    have hc : |c.balance - c.balance| < (1 : ℚ) / 100 := by norm_num
    rw [if_pos hc]
    split <;> (simp; try omega)

theorem settleLoop_fuel_eq (f : Nat) :
    ∀ (g : Nat) (ds cs : List MemberBal), ds.length + cs.length ≤ f →
      ds.length + cs.length ≤ g → settleLoop f ds cs = settleLoop g ds cs := by
  induction f with
  | zero =>
      intro g ds cs hf _
      have hds : ds = [] := List.length_eq_zero.mp (by omega)
      subst hds
      rw [settleLoop_nil_left, settleLoop_nil_left]
  | succ f ih =>
      intro g ds cs hf hg
      cases ds with
      | nil => rw [settleLoop_nil_left, settleLoop_nil_left]
      | cons d ds' =>
        cases cs with
        | nil => rw [settleLoop_nil_right, settleLoop_nil_right]
        | cons c cs' =>
          cases g with
          | zero => simp only [List.length_cons] at hg; omega
          | succ g' =>
            rw [settleLoop_succ, settleLoop_succ]
            congr 1
            have hlen := settleStep_length d c ds' cs'
            simp only [List.length_cons] at hf hg
            exact ih g' _ _ (by omega) (by omega)

/-! ## Sorting: permutation facts -/

theorem insertAsc_perm (x : MemberBal) (l : List MemberBal) :
    (insertAsc x l).Perm (x :: l) := by
  induction l with
  | nil => simp [insertAsc]
  | cons y ys ih =>
      simp only [insertAsc]
      split
      · exact (ih.cons y).trans (List.Perm.swap x y ys)
      · exact List.Perm.refl _

theorem insertDesc_perm (x : MemberBal) (l : List MemberBal) :
    (insertDesc x l).Perm (x :: l) := by
  induction l with
  | nil => simp [insertDesc]
  | cons y ys ih =>
      simp only [insertDesc]
      split
      · exact (ih.cons y).trans (List.Perm.swap x y ys)
      · exact List.Perm.refl _

theorem foldl_insertAsc_perm (l : List MemberBal) :
    ∀ acc, (l.foldl (fun a x => insertAsc x a) acc).Perm (acc ++ l) := by
  induction l with
  | nil => intro acc; simp
  | cons x t ih =>
      intro acc
      simp only [List.foldl_cons]
      refine (ih (insertAsc x acc)).trans ?_
      refine (List.Perm.append_right t (insertAsc_perm x acc)).trans ?_
      exact List.perm_middle.symm

theorem foldl_insertDesc_perm (l : List MemberBal) :
    ∀ acc, (l.foldl (fun a x => insertDesc x a) acc).Perm (acc ++ l) := by
  induction l with
  | nil => intro acc; simp
  | cons x t ih =>
      intro acc
      simp only [List.foldl_cons]
      refine (ih (insertDesc x acc)).trans ?_
      refine (List.Perm.append_right t (insertDesc_perm x acc)).trans ?_
      exact List.perm_middle.symm

theorem sortAsc_perm (l : List MemberBal) : (sortAsc l).Perm l := by
  simpa [sortAsc] using foldl_insertAsc_perm l []

theorem sortDesc_perm (l : List MemberBal) : (sortDesc l).Perm l := by
  simpa [sortDesc] using foldl_insertDesc_perm l []

/-! ## Loop invariants: provenance and sign of entries -/

theorem settleLoop_mem_ids (f : Nat) :
    ∀ (ds cs : List MemberBal) (P Q : String → Prop),
      (∀ d ∈ ds, P d.id) → (∀ c ∈ cs, Q c.id) →
      ∀ e ∈ settleLoop f ds cs, P e.fromId ∧ Q e.toId := by
  induction f with
  | zero =>
      intro ds cs P Q _ _ e he
      rw [show settleLoop 0 ds cs = [] from rfl] at he
      simp at he
  | succ f ih =>
      intro ds cs P Q hP hQ e he
      cases ds with
      | nil => rw [settleLoop_nil_left] at he; simp at he
      | cons d ds' =>
        cases cs with
        | nil => rw [settleLoop_nil_right] at he; simp at he
        | cons c cs' =>
          rw [settleLoop_succ] at he
          rcases List.mem_cons.mp he with he | he
          · subst he
            exact ⟨hP d (List.mem_cons_self d ds'), hQ c (List.mem_cons_self c cs')⟩
          · refine ih _ _ P Q ?_ ?_ e he
            · intro x hx
              split at hx
              · exact hP x (List.mem_cons_of_mem d hx)
              · rcases List.mem_cons.mp hx with h | h
                · subst h; exact hP d (List.mem_cons_self d ds')
                · exact hP x (List.mem_cons_of_mem d h)
            · intro x hx
              split at hx
              · exact hQ x (List.mem_cons_of_mem c hx)
              · rcases List.mem_cons.mp hx with h | h
                · subst h; exact hQ c (List.mem_cons_self c cs')
                · exact hQ x (List.mem_cons_of_mem c h)

theorem settleLoop_amount_pos (f : Nat) :
    ∀ (ds cs : List MemberBal), (∀ d ∈ ds, d.balance < 0) →
      (∀ c ∈ cs, 0 < c.balance) →
      ∀ e ∈ settleLoop f ds cs, 0 < e.amount := by
  induction f with
  | zero =>
      intro ds cs _ _ e he
      rw [show settleLoop 0 ds cs = [] from rfl] at he
      simp at he
  | succ f ih =>
      intro ds cs hP hQ e he
      cases ds with
      | nil => rw [settleLoop_nil_left] at he; simp at he
      | cons d ds' =>
        cases cs with
        | nil => rw [settleLoop_nil_right] at he; simp at he
        | cons c cs' =>
          have hdneg : d.balance < 0 := hP d (List.mem_cons_self d ds')
          have hcpos : 0 < c.balance := hQ c (List.mem_cons_self c cs')
          rw [settleLoop_succ] at he
          rcases List.mem_cons.mp he with he | he
          · subst he
            exact lt_min (by linarith) hcpos
          · refine ih _ _ ?_ ?_ e he
            · intro x hx
              split at hx
              · exact hP x (List.mem_cons_of_mem d hx)
              · rename_i hkeep
                rcases List.mem_cons.mp hx with h | h
                · subst h
                  have hle : d.balance + min (-d.balance) c.balance ≤ 0 := by
                    have := min_le_left (-d.balance) c.balance
                    linarith
                  rcases lt_or_eq_of_le hle with h0 | h0
                  · exact h0
                  · exact absurd (by rw [h0]; norm_num) hkeep
                · exact hP x (List.mem_cons_of_mem d h)
            · intro x hx
              split at hx
              · exact hQ x (List.mem_cons_of_mem c hx)
              · rename_i hkeep
                rcases List.mem_cons.mp hx with h | h
                · subst h
                  have hge : 0 ≤ c.balance - min (-d.balance) c.balance := by
                    have := min_le_right (-d.balance) c.balance
                    linarith
                  rcases lt_or_eq_of_le hge with h0 | h0
                  · exact h0
                  · exact absurd (by rw [← h0]; norm_num) hkeep
                · exact hQ x (List.mem_cons_of_mem c h)

theorem settleLoop_length_le (f : Nat) :
    ∀ ds cs : List MemberBal,
      (settleLoop f ds cs).length ≤ ds.length + cs.length - 1 := by
  induction f with
  | zero =>
      intro ds cs
      rw [show settleLoop 0 ds cs = [] from rfl]
      simp
  | succ f ih =>
      intro ds cs
      cases ds with
      | nil => rw [settleLoop_nil_left]; simp
      | cons d ds' =>
        cases cs with
        | nil => rw [settleLoop_nil_right]; simp
        | cons c cs' =>
          rw [settleLoop_succ]
          have hrec := ih
            (if |d.balance + min (-d.balance) c.balance| < 1 / 100 then ds'
             else { d with balance := d.balance + min (-d.balance) c.balance } :: ds')
            (if |c.balance - min (-d.balance) c.balance| < 1 / 100 then cs'
             else { c with balance := c.balance - min (-d.balance) c.balance } :: cs')
          have hlen := settleStep_length d c ds' cs'
          simp only [List.length_cons]
          omega

theorem filter_sign_length (bs : List MemberBal) :
    (bs.filter (fun m => m.balance < 0)).length +
      (bs.filter (fun m => 0 < m.balance)).length =
      (bs.filter (fun m => m.balance ≠ 0)).length := by
  induction bs with
  | nil => rfl
  | cons b t ih =>
      rcases lt_trichotomy b.balance 0 with h | h | h
      · have h1 : ¬ (0 < b.balance) := by linarith
        have h2 : b.balance ≠ 0 := ne_of_lt h
        simp only [List.filter_cons, decide_eq_true_eq, if_pos h, if_neg h1,
          if_pos h2]
        simp only [List.length_cons]
        omega
      · have h1 : ¬ (b.balance < 0) := by rw [h]; norm_num
        have h2 : ¬ (0 < b.balance) := by rw [h]; norm_num
        have h3 : ¬ (b.balance ≠ 0) := by rw [h]; simp
        simp only [List.filter_cons, decide_eq_true_eq, if_neg h1, if_neg h2,
          if_neg h3]
        omega
      · have h1 : ¬ (b.balance < 0) := by linarith
        have h2 : b.balance ≠ 0 := ne_of_gt h
        simp only [List.filter_cons, decide_eq_true_eq, if_neg h1, if_pos h,
          if_pos h2]
        simp only [List.length_cons]
        omega

/-- Claim C5: the matching loop terminates — it stabilises after at most
`debtors.length + creditors.length` iterations, because the transfer
`min(-debtor.balance, creditor.balance)` zeroes one of the two parties
exactly, so each iteration removes at least one list element; any two fuel
values at least `debtors.length + creditors.length` give the same run. -/
theorem claim_C5 (ds cs : List MemberBal) (f g : Nat)
    (hf : ds.length + cs.length ≤ f) (hg : ds.length + cs.length ≤ g) :
    settleLoop f ds cs = settleLoop g ds cs :=
  settleLoop_fuel_eq f g ds cs hf hg

theorem claim_C5_witness :
    settleLoop 7 [⟨"a", "A", -2⟩] [⟨"b", "B", 2⟩] =
      settleLoop 2 [⟨"a", "A", -2⟩] [⟨"b", "B", 2⟩] :=
  claim_C5 [⟨"a", "A", -2⟩] [⟨"b", "B", 2⟩] 7 2 (by decide) (by decide)

/-- Claim C2 (amended): `calculateSettlements` excludes only balances with
amount exactly 0 (and nothing else) from the matching: every emitted entry's
`from` is an input balance with strictly negative amount and its `to` one
with strictly positive amount. Balances with `0 < |amount| < 0.01` are NOT
pre-excluded; the ±0.01 tolerance is applied only when dropping a party
after a transfer. -/
theorem claim_C2 (balances : List MemberBal) :
    ∀ e ∈ calculateSettlements balances,
      (∃ b ∈ balances, b.id = e.fromId ∧ b.balance < 0) ∧
      (∃ b ∈ balances, b.id = e.toId ∧ 0 < b.balance) := by
  intro e he
  simp only [calculateSettlements] at he
  refine settleLoop_mem_ids _ _ _
    (fun i => ∃ b ∈ balances, b.id = i ∧ b.balance < 0)
    (fun i => ∃ b ∈ balances, b.id = i ∧ 0 < b.balance) ?_ ?_ e he
  · intro d hd
    have hd' : d ∈ balances.filter (fun m => m.balance < 0) :=
      (sortAsc_perm _).mem_iff.mp hd
    have hmem := List.mem_filter.mp hd'
    exact ⟨d, hmem.1, rfl, by simpa using hmem.2⟩
  · intro c hc
    have hc' : c ∈ balances.filter (fun m => 0 < m.balance) :=
      (sortDesc_perm _).mem_iff.mp hc
    have hmem := List.mem_filter.mp hc'
    exact ⟨c, hmem.1, rfl, by simpa using hmem.2⟩

theorem claim_C2_witness :
    (∃ b ∈ [(⟨"a", "A", -30⟩ : MemberBal), ⟨"b", "B", 30⟩],
        b.id = "a" ∧ b.balance < 0) ∧
    (∃ b ∈ [(⟨"a", "A", -30⟩ : MemberBal), ⟨"b", "B", 30⟩],
        b.id = "b" ∧ 0 < b.balance) :=
  claim_C2 [⟨"a", "A", -30⟩, ⟨"b", "B", 30⟩] ⟨"a", "A", "b", "B", 30⟩
    (by norm_num +decide [calculateSettlements, sortAsc, sortDesc, insertAsc,
      insertDesc, settleLoop])

/-- Claim C2 as stated is false: the balance `-1/200 = -0.005` lies strictly
inside the ±0.01 band, yet it is not excluded — it appears as the `from` of
an emitted settlement entry. -/
theorem claim_C2_cex :
    (0 < |(-1 : ℚ) / 200| ∧ |(-1 : ℚ) / 200| < 1 / 100) ∧
    ¬ (∀ e ∈ calculateSettlements [⟨"a", "A", -1 / 200⟩, ⟨"b", "B", 1 / 200⟩],
        e.fromId ≠ "a" ∧ e.toId ≠ "a") := by
  have heval : calculateSettlements [⟨"a", "A", -1 / 200⟩, ⟨"b", "B", 1 / 200⟩] =
      [⟨"a", "A", "b", "B", 1 / 200⟩] := by
    norm_num +decide [calculateSettlements, sortAsc, sortDesc, insertAsc,
      insertDesc, settleLoop]
  constructor
  · have habs : |(-1 : ℚ) / 200| = 1 / 200 := by
      rw [abs_of_nonpos (by norm_num : (-1 : ℚ) / 200 ≤ 0)]
      norm_num
    rw [habs]
    constructor <;> norm_num
  · intro h
    rw [heval] at h
    exact (h ⟨"a", "A", "b", "B", 1 / 200⟩ (List.mem_singleton_self _)).1 rfl

/-- Claim C9: every settlement entry emitted by `calculateSettlements` has a
strictly positive amount; the underlying loop invariant is that remaining
debtors stay strictly negative and remaining creditors strictly positive. -/
theorem claim_C9 (balances : List MemberBal) :
    ∀ e ∈ calculateSettlements balances, 0 < e.amount := by
  intro e he
  simp only [calculateSettlements] at he
  refine settleLoop_amount_pos _ _ _ ?_ ?_ e he
  · intro d hd
    have hd' : d ∈ balances.filter (fun m => m.balance < 0) :=
      (sortAsc_perm _).mem_iff.mp hd
    simpa using (List.mem_filter.mp hd').2
  · intro c hc
    have hc' : c ∈ balances.filter (fun m => 0 < m.balance) :=
      (sortDesc_perm _).mem_iff.mp hc
    simpa using (List.mem_filter.mp hc').2

theorem claim_C9_witness : (0 : ℚ) < 30 :=
  claim_C9 [⟨"a", "A", -30⟩, ⟨"b", "B", 30⟩] ⟨"a", "A", "b", "B", 30⟩
    (by norm_num +decide [calculateSettlements, sortAsc, sortDesc, insertAsc,
      insertDesc, settleLoop])

/-- Claim C4: for an input with `n` balances of non-zero amount,
`calculateSettlements` emits at most `n - 1` entries (truncated subtraction,
so an input with no non-zero balance yields no entries). -/
theorem claim_C4 (balances : List MemberBal) :
    (calculateSettlements balances).length ≤
      (balances.filter (fun m => m.balance ≠ 0)).length - 1 := by
  simp only [calculateSettlements]
  have h := settleLoop_length_le
    ((sortAsc (balances.filter (fun m => m.balance < 0))).length +
      (sortDesc (balances.filter (fun m => 0 < m.balance))).length)
    (sortAsc (balances.filter (fun m => m.balance < 0)))
    (sortDesc (balances.filter (fun m => 0 < m.balance)))
  have h1 : (sortAsc (balances.filter (fun m => m.balance < 0))).length =
      (balances.filter (fun m => m.balance < 0)).length :=
    (sortAsc_perm _).length_eq
  have h2 : (sortDesc (balances.filter (fun m => 0 < m.balance))).length =
      (balances.filter (fun m => 0 < m.balance)).length :=
    (sortDesc_perm _).length_eq
  have h3 := filter_sign_length balances
  omega

/-! ## Equal-split arithmetic -/

theorem foldl_bump_eq_map (ms : List Member) :
    ∀ (st : List MemberBal) (x : ℚ),
      ms.foldl (fun s m => bumpBalance s m.id x) st =
        st.map (fun b =>
          { b with balance :=
              b.balance + (ms.countP (fun m => m.id = b.id) : ℚ) * x }) := by
  induction ms with
  | nil =>
      intro st x
      simp only [List.foldl_nil, List.countP_nil]
      have hfun : (fun (b : MemberBal) =>
          ({ b with balance := b.balance + ((0 : Nat) : ℚ) * x } : MemberBal)) =
            fun b => b := by
        funext b
        simp
      rw [hfun]
      simp
  | cons m t ih =>
      intro st x
      simp only [List.foldl_cons, ih]
      simp only [bumpBalance, List.map_map]
      refine List.map_congr_left ?_
      intro b _
      simp only [Function.comp_apply, List.countP_cons]
      by_cases h : b.id = m.id
      · have hp : (fun (m' : Member) => decide (m'.id = b.id)) m = true := by
          simp [h.symm]
        simp only [if_pos h, hp, if_true]
        have : ((t.countP (fun m' => decide (m'.id = b.id)) + 1 : Nat) : ℚ) =
            (t.countP (fun m' => decide (m'.id = b.id)) : ℚ) + 1 := by push_cast; ring
        simp only [this]
        congr 1
        ring
      · have hp : (fun (m' : Member) => decide (m'.id = b.id)) m = false := by
          simp only [decide_eq_false_iff_not]
          intro hc
          exact h hc.symm
        simp [if_neg h, hp]

theorem countP_id_eq_one (members : List Member) (m : Member)
    (hnd : (members.map Member.id).Nodup) (hm : m ∈ members) :
    members.countP (fun m' => m'.id = m.id) = 1 := by
  induction members with
  | nil => simp at hm
  | cons a t ih =>
      simp only [List.map_cons, List.nodup_cons] at hnd
      rw [List.countP_cons]
      rcases List.mem_cons.mp hm with h | h
      · subst h
        have hzero : t.countP (fun m' => decide (m'.id = m.id)) = 0 := by
          rw [List.countP_eq_zero]
          intro x hx
          simp only [decide_eq_true_eq]
          intro hxe
          exact hnd.1 (hxe ▸ List.mem_map_of_mem Member.id hx)
        simp [hzero]
      · rw [ih hnd.2 h]
        have hne : ¬ (a.id = m.id) := by
          intro he
          exact hnd.1 (he ▸ List.mem_map_of_mem Member.id h)
        simp [hne]

/-- Claim C7: a single equal-split expense of amount `A` paid by member `p`
in a group of `N` members leaves the payer with `A - A/N` and every other
member with `-(A/N)` (exactly, hence within any tolerance); and in the
concrete scenario of members A, B, C with one equal expense of 90 paid by A,
the balances are 60, -30, -30 and the settlements are B→A 30 and C→A 30. -/
theorem claim_C7 (members : List Member) (p : Member) (A : ℚ) (eid : String)
    (hnd : (members.map Member.id).Nodup) (hp : p ∈ members) :
    (computeBalances members [⟨eid, p.id, A, SplitType.equal, []⟩] =
      members.map (fun m =>
        ⟨m.id, m.name,
          if m.id = p.id then A - A / (members.length : ℚ)
          else -(A / (members.length : ℚ))⟩)) ∧
    computeBalances [⟨"a", "A"⟩, ⟨"b", "B"⟩, ⟨"c", "C"⟩]
        [⟨"e1", "a", 90, SplitType.equal, []⟩] =
      [⟨"a", "A", 60⟩, ⟨"b", "B", -30⟩, ⟨"c", "C", -30⟩] ∧
    calculateSettlements [⟨"a", "A", 60⟩, ⟨"b", "B", -30⟩, ⟨"c", "C", -30⟩] =
      [⟨"b", "B", "a", "A", 30⟩, ⟨"c", "C", "a", "A", 30⟩] := by
  refine ⟨?_, ?_, ?_⟩
  · have hne : members ≠ [] := by
      intro h0
      rw [h0] at hp
      simp at hp
    have hnem : ¬ members.isEmpty := by
      simpa [List.isEmpty_iff] using hne
    rw [computeBalances, if_neg hnem]
    simp only [List.foldl_cons, List.foldl_nil]
    rw [initBalances_eq_of_nodup members hnd]
    simp only [applyExpense, applyDebits, creditPayer]
    rw [if_neg (by simp)]
    rw [foldl_bump_eq_map]
    simp only [bumpBalance, List.map_map]
    refine List.map_congr_left ?_
    intro m hm
    have hcount : members.countP (fun m' => m'.id = m.id) = 1 :=
      countP_id_eq_one members m hnd hm
    simp only [Function.comp_apply]
    by_cases h : m.id = p.id
    · simp only [if_pos h]
      simp only [MemberBal.mk.injEq, true_and]
      rw [hcount]
      push_cast
      ring
    · simp only [if_neg h]
      simp only [MemberBal.mk.injEq, true_and]
      rw [hcount]
      push_cast
      ring
  · norm_num +decide [computeBalances, initBalances, objSet, applyExpense,
      applyDebits, creditPayer, bumpBalance]
  · norm_num +decide [calculateSettlements, sortAsc, sortDesc, insertAsc,
      insertDesc, settleLoop]

theorem claim_C7_witness :
    (computeBalances [⟨"x", "X"⟩, ⟨"y", "Y"⟩] [⟨"e9", "x", 10, SplitType.equal, []⟩] =
      ([⟨"x", "X"⟩, ⟨"y", "Y"⟩] : List Member).map (fun m =>
        ⟨m.id, m.name,
          if m.id = "x" then (10 : ℚ) - 10 / (([⟨"x", "X"⟩, ⟨"y", "Y"⟩] : List Member).length : ℚ)
          else -((10 : ℚ) / (([⟨"x", "X"⟩, ⟨"y", "Y"⟩] : List Member).length : ℚ))⟩)) ∧
    computeBalances [⟨"a", "A"⟩, ⟨"b", "B"⟩, ⟨"c", "C"⟩]
        [⟨"e1", "a", 90, SplitType.equal, []⟩] =
      [⟨"a", "A", 60⟩, ⟨"b", "B", -30⟩, ⟨"c", "C", -30⟩] ∧
    calculateSettlements [⟨"a", "A", 60⟩, ⟨"b", "B", -30⟩, ⟨"c", "C", -30⟩] =
      [⟨"b", "B", "a", "A", 30⟩, ⟨"c", "C", "a", "A", 30⟩] :=
  claim_C7 [⟨"x", "X"⟩, ⟨"y", "Y"⟩] ⟨"x", "X"⟩ 10 "e9" (by decide) (by decide)

/-! ## Unknown member references -/

theorem foldl_bumpSplits_nil (sps : List Split) :
    sps.foldl (fun s sp => bumpBalance s sp.memberId (-sp.amount))
      ([] : List MemberBal) = [] := by
  induction sps with
  | nil => rfl
  | cons sp t ih => exact ih

theorem foldl_bumpSplits_ids (sps : List Split) :
    ∀ st : List MemberBal,
      ((sps.foldl (fun s sp => bumpBalance s sp.memberId (-sp.amount)) st).map
        MemberBal.id) = st.map MemberBal.id := by
  induction sps with
  | nil => intro st; rfl
  | cons sp t ih =>
      intro st
      simp only [List.foldl_cons, ih, bumpBalance_ids]

theorem computeBalances_ids_subset (members : List Member) (es : List Expense) :
    ∀ i ∈ (computeBalances members es).map MemberBal.id,
      i ∈ members.map Member.id := by
  intro i hi
  rw [computeBalances_ids] at hi
  by_cases hm : members.isEmpty
  · rw [if_pos hm] at hi; simp at hi
  · rw [if_neg hm] at hi
    exact (mem_ids_initBalances members i).mp hi

/-- Claim C8: unknown member references are silently ignored. (a) An expense
whose `paidBy` matches no member credits no one: appending it acts as the
share-subtraction phase alone (so balances need not sum to zero). (b) An
unequal split entry whose `memberId` matches no member changes no balance:
it can be dropped from a non-empty split list without changing the result.
`computeBalances` is a total function, so no input makes it fail. -/
theorem claim_C8 :
    (∀ (members : List Member) (es : List Expense) (e : Expense),
        e.paidBy ∉ members.map Member.id →
        computeBalances members (es ++ [e]) =
          applyDebits members (computeBalances members es) e) ∧
    (∀ (members : List Member) (es : List Expense) (e : Expense)
        (l r : List Split) (sp : Split),
        sp.memberId ∉ members.map Member.id →
        e.splitType = SplitType.unequal → e.splits = l ++ sp :: r →
        l ++ r ≠ [] →
        computeBalances members (es ++ [e]) =
          computeBalances members (es ++ [{ e with splits := l ++ r }])) := by
  constructor
  · intro members es e hpay
    by_cases hm : members.isEmpty
    · have hmnil : members = [] := List.isEmpty_iff.mp hm
      subst hmnil
      simp only [computeBalances, List.isEmpty_nil, if_true]
      simp only [applyDebits]
      split
      · exact (foldl_bumpSplits_nil e.splits).symm
      · rfl
    · have hstep : computeBalances members (es ++ [e]) =
          applyExpense members (computeBalances members es) e := by
        simp only [computeBalances, if_neg hm, List.foldl_append,
          List.foldl_cons, List.foldl_nil]
      have hnp : ∀ b ∈ computeBalances members es, b.id ≠ e.paidBy := by
        intro b hb hc
        apply hpay
        rw [← hc]
        exact computeBalances_ids_subset members es b.id
          (List.mem_map_of_mem MemberBal.id hb)
      rw [hstep, applyExpense, creditPayer,
        bumpBalance_of_not_mem _ _ _ hnp]
  · intro members es e l r sp hsp hut hsplits hlr
    by_cases hm : members.isEmpty
    · simp only [computeBalances, if_pos hm]
    · have hstep1 : computeBalances members (es ++ [e]) =
          applyExpense members (computeBalances members es) e := by
        simp only [computeBalances, if_neg hm, List.foldl_append,
          List.foldl_cons, List.foldl_nil]
      have hstep2 : computeBalances members (es ++ [{ e with splits := l ++ r }]) =
          applyExpense members (computeBalances members es)
            { e with splits := l ++ r } := by
        simp only [computeBalances, if_neg hm, List.foldl_append,
          List.foldl_cons, List.foldl_nil]
      rw [hstep1, hstep2]
      have hcp : creditPayer (computeBalances members es)
          ({ e with splits := l ++ r }) =
          creditPayer (computeBalances members es) e := rfl
      simp only [applyExpense, applyDebits, hcp]
      have hcond1 : e.splitType = SplitType.unequal ∧ 0 < e.splits.length :=
        ⟨hut, by rw [hsplits]; simp⟩
      have hcond2 : ({ e with splits := l ++ r } : Expense).splitType =
          SplitType.unequal ∧
          0 < ({ e with splits := l ++ r } : Expense).splits.length := by
        refine ⟨hut, ?_⟩
        have := List.length_pos.mpr hlr
        simpa using this
      rw [if_pos hcond1, if_pos hcond2]
      show e.splits.foldl (fun s sp' => bumpBalance s sp'.memberId (-sp'.amount))
          (creditPayer (computeBalances members es) e) =
        (l ++ r).foldl (fun s sp' => bumpBalance s sp'.memberId (-sp'.amount))
          (creditPayer (computeBalances members es) e)
      rw [hsplits, List.foldl_append, List.foldl_append, List.foldl_cons]
      congr 1
      have hids : ∀ b ∈ (l.foldl
          (fun s sp' => bumpBalance s sp'.memberId (-sp'.amount))
          (creditPayer (computeBalances members es) e)),
          b.id ≠ sp.memberId := by
        intro b hb hc
        apply hsp
        rw [← hc]
        have h1 := List.mem_map_of_mem MemberBal.id hb
        rw [foldl_bumpSplits_ids, creditPayer, bumpBalance_ids] at h1
        exact computeBalances_ids_subset members es b.id h1
      exact bumpBalance_of_not_mem _ _ _ hids

theorem claim_C8_witness :
    computeBalances [⟨"a", "A"⟩] ([] ++ [⟨"e", "z", 50, SplitType.equal, []⟩]) =
      applyDebits [⟨"a", "A"⟩] (computeBalances [⟨"a", "A"⟩] [])
        ⟨"e", "z", 50, SplitType.equal, []⟩ :=
  claim_C8.1 [⟨"a", "A"⟩] [] ⟨"e", "z", 50, SplitType.equal, []⟩ (by decide)

/-- Claim C10 (implicit behaviour): an expense with `splitType = 'unequal'`
and an empty (or absent) `splits` array falls into the equal-split branch —
the amount is divided by the member count and subtracted from every member —
because the code's branch condition is `splitType === 'unequal' &&
splits?.length > 0`. -/
theorem claim_C10 (members : List Member) (es1 es2 : List Expense) (e : Expense)
    (h : e.splits = []) :
    computeBalances members
        (es1 ++ { e with splitType := SplitType.unequal } :: es2) =
      computeBalances members
        (es1 ++ { e with splitType := SplitType.equal } :: es2) := by
  simp only [computeBalances]
  by_cases hm : members.isEmpty
  · simp [hm]
  · rw [if_neg hm, if_neg hm, List.foldl_append, List.foldl_append,
      List.foldl_cons, List.foldl_cons]
    have happ : ∀ st, applyExpense members st { e with splitType := SplitType.unequal } =
        applyExpense members st { e with splitType := SplitType.equal } := by
      intro st
      simp only [applyExpense, applyDebits, creditPayer]
      rw [if_neg (by simp [h]), if_neg (by simp)]
    rw [happ]

theorem claim_C10_witness :
    computeBalances [⟨"a", "A"⟩, ⟨"b", "B"⟩]
        ([] ++ ({ (⟨"e", "a", 10, SplitType.equal, []⟩ : Expense) with
          splitType := SplitType.unequal } : Expense) :: []) =
      computeBalances [⟨"a", "A"⟩, ⟨"b", "B"⟩]
        ([] ++ ({ (⟨"e", "a", 10, SplitType.equal, []⟩ : Expense) with
          splitType := SplitType.equal } : Expense) :: []) :=
  claim_C10 [⟨"a", "A"⟩, ⟨"b", "B"⟩] [] []
    ⟨"e", "a", 10, SplitType.equal, []⟩ rfl

/-! ## Applying a settlement plan to balances -/

theorem netAmount_nil (i : String) : netAmount [] i = 0 := rfl

theorem netAmount_cons (e : Settlement) (es : List Settlement) (i : String) :
    netAmount (e :: es) i = entryDelta e i + netAmount es i := by
  simp [netAmount]

theorem applyEntries_eq_map (entries : List Settlement) :
    ∀ bs : List MemberBal,
      applyEntries entries bs =
        bs.map (fun b => ⟨b.id, b.name, b.balance + netAmount entries b.id⟩) := by
  induction entries with
  | nil =>
      intro bs
      simp only [applyEntries, List.foldl_nil]
      have hfun : (fun (b : MemberBal) =>
          (⟨b.id, b.name, b.balance + netAmount [] b.id⟩ : MemberBal)) =
          fun b => b := by
        funext b
        simp [netAmount_nil]
      rw [hfun]
      simp
  | cons e es ih =>
      intro bs
      show applyEntries es (applyEntry bs e) = _
      rw [ih (applyEntry bs e)]
      simp only [applyEntry, List.map_map]
      refine List.map_congr_left ?_
      intro b _
      simp only [Function.comp_apply, netAmount_cons, entryDelta]
      by_cases h1 : b.id = e.fromId
      · simp only [if_pos h1, MemberBal.mk.injEq, true_and]
        ring
      · by_cases h2 : b.id = e.toId
        · simp only [if_neg h1, if_pos h2, MemberBal.mk.injEq, true_and]
          ring
        · simp only [if_neg h1, if_neg h2, MemberBal.mk.injEq, true_and]
          ring

/-! ## Whole cents -/

/-- A rational amount that is a whole number of minor currency units. -/
def Cent (x : ℚ) : Prop := ∃ k : ℤ, x = (k : ℚ) / 100

theorem Cent.add {x y : ℚ} (hx : Cent x) (hy : Cent y) : Cent (x + y) := by
  obtain ⟨k, hk⟩ := hx
  obtain ⟨l, hl⟩ := hy
  exact ⟨k + l, by rw [hk, hl]; push_cast; ring⟩

theorem Cent.neg {x : ℚ} (hx : Cent x) : Cent (-x) := by
  obtain ⟨k, hk⟩ := hx
  exact ⟨-k, by rw [hk]; push_cast; ring⟩

theorem Cent.sub {x y : ℚ} (hx : Cent x) (hy : Cent y) : Cent (x - y) := by
  have := hx.add hy.neg
  simpa [sub_eq_add_neg] using this

theorem Cent.min {x y : ℚ} (hx : Cent x) (hy : Cent y) : Cent (Min.min x y) := by
  rcases le_total x y with h | h
  · rwa [min_eq_left h]
  · rwa [min_eq_right h]

theorem Cent.eq_zero_of_abs_lt {x : ℚ} (hx : Cent x) (h : |x| < 1 / 100) :
    x = 0 := by
  obtain ⟨k, hk⟩ := hx
  subst hk
  rw [abs_div, abs_of_pos (by norm_num : (0 : ℚ) < 100)] at h
  have habs : |(k : ℚ)| < 1 := by linarith
  have hk1 : |k| < 1 := by exact_mod_cast habs
  have hk0 : k = 0 := by
    rcases abs_lt.mp hk1 with ⟨h1, h2⟩
    omega
  simp [hk0]

theorem Cent.le_neg_of_neg {x : ℚ} (hx : Cent x) (h : x < 0) :
    x ≤ -(1 / 100) := by
  obtain ⟨k, hk⟩ := hx
  subst hk
  have hkneg : k < 0 := by
    by_contra hc
    push_neg at hc
    have h0 : (0 : ℚ) ≤ (k : ℚ) := by exact_mod_cast hc
    have h1 : (0 : ℚ) ≤ (k : ℚ) / 100 :=
      div_nonneg h0 (by norm_num : (0 : ℚ) ≤ 100)
    linarith
  have hk1 : ((k : ℚ)) ≤ -1 := by exact_mod_cast (by omega : k ≤ -1)
  linarith

theorem Cent.le_pos_of_pos {x : ℚ} (hx : Cent x) (h : 0 < x) :
    1 / 100 ≤ x := by
  have := (hx.neg).le_neg_of_neg (by linarith)
  linarith

theorem sumBalances_pos_of_nonempty (cs : List MemberBal)
    (hall : ∀ c ∈ cs, (1 : ℚ) / 100 ≤ c.balance) (hne : cs ≠ []) :
    0 < sumBalances cs := by
  induction cs with
  | nil => exact absurd rfl hne
  | cons c t ih =>
      rw [sumBalances_cons]
      have hc := hall c (List.mem_cons_self c t)
      by_cases ht : t = []
      · subst ht
        rw [sumBalances_nil]
        linarith
      · have := ih (fun x hx => hall x (List.mem_cons_of_mem c hx)) ht
        linarith

theorem sumBalances_neg_of_nonempty (ds : List MemberBal)
    (hall : ∀ d ∈ ds, d.balance ≤ -(1 / 100)) (hne : ds ≠ []) :
    sumBalances ds < 0 := by
  induction ds with
  | nil => exact absurd rfl hne
  | cons d t ih =>
      rw [sumBalances_cons]
      have hd := hall d (List.mem_cons_self d t)
      by_cases ht : t = []
      · subst ht
        rw [sumBalances_nil]
        linarith
      · have := ih (fun x hx => hall x (List.mem_cons_of_mem d hx)) ht
        linarith

/-- Assembling the net-transfer bookkeeping for one loop iteration: if the
remaining entries compensate the residual balances, the iteration's own entry
tops this up to compensate the original head balances. -/
theorem settleNet_assemble (d c : MemberBal) (t : ℚ) (rest : List Settlement)
    (ds' cs' : List MemberBal)
    (hdc : d.id ≠ c.id)
    (hdds : d.id ∉ ds'.map MemberBal.id) (hdcs : d.id ∉ cs'.map MemberBal.id)
    (hcds : c.id ∉ ds'.map MemberBal.id) (hccs : c.id ∉ cs'.map MemberBal.id)
    (hrest1 : ∀ b ∈ ds' ++ cs', netAmount rest b.id = -b.balance)
    (hrestd : netAmount rest d.id = -d.balance - t)
    (hrestc : netAmount rest c.id = t - c.balance)
    (hrest2 : ∀ i, i ≠ d.id → i ≠ c.id → i ∉ ds'.map MemberBal.id →
      i ∉ cs'.map MemberBal.id → netAmount rest i = 0) :
    (∀ b ∈ (d :: ds') ++ c :: cs',
      netAmount (⟨d.id, d.name, c.id, c.name, t⟩ :: rest) b.id = -b.balance) ∧
    (∀ i, i ∉ ((d :: ds') ++ c :: cs').map MemberBal.id →
      netAmount (⟨d.id, d.name, c.id, c.name, t⟩ :: rest) i = 0) := by
  constructor
  · intro b hb
    rw [netAmount_cons]
    rcases List.mem_append.mp hb with hbl | hbr
    · rcases List.mem_cons.mp hbl with hbd | hbds
      · subst hbd
        have hdelta : entryDelta ⟨b.id, b.name, c.id, c.name, t⟩ b.id = t := by
          simp [entryDelta]
        rw [hdelta, hrestd]
        ring
      · have h1 : b.id ≠ d.id := fun he =>
          hdds (he ▸ List.mem_map_of_mem MemberBal.id hbds)
        have h2 : b.id ≠ c.id := fun he =>
          hcds (he ▸ List.mem_map_of_mem MemberBal.id hbds)
        have hdelta : entryDelta ⟨d.id, d.name, c.id, c.name, t⟩ b.id = 0 := by
          simp [entryDelta, h1, h2]
        rw [hdelta, hrest1 b (List.mem_append_left _ hbds)]
        ring
    · rcases List.mem_cons.mp hbr with hbc | hbcs
      · subst hbc
        have h1 : b.id ≠ d.id := Ne.symm hdc
        have hdelta : entryDelta ⟨d.id, d.name, b.id, b.name, t⟩ b.id = -t := by
          simp [entryDelta, h1]
        rw [hdelta, hrestc]
        ring
      · have h1 : b.id ≠ d.id := fun he =>
          hdcs (he ▸ List.mem_map_of_mem MemberBal.id hbcs)
        have h2 : b.id ≠ c.id := fun he =>
          hccs (he ▸ List.mem_map_of_mem MemberBal.id hbcs)
        have hdelta : entryDelta ⟨d.id, d.name, c.id, c.name, t⟩ b.id = 0 := by
          simp [entryDelta, h1, h2]
        rw [hdelta, hrest1 b (List.mem_append_right _ hbcs)]
        ring
  · intro i hi
    simp only [List.cons_append, List.map_cons, List.map_append, List.mem_cons,
      List.mem_append] at hi
    push_neg at hi
    obtain ⟨hid, hids', hic, hics'⟩ := hi
    have hdelta : entryDelta ⟨d.id, d.name, c.id, c.name, t⟩ i = 0 := by
      simp [entryDelta, hid, hic]
    rw [netAmount_cons, hdelta, hrest2 i hid hic hids' hics']
    ring

/-- Main loop invariant: when both lists hold whole-cent balances of the
right strict sign, their ids are distinct, and total debt matches total
credit, the emitted entries compensate every member's balance exactly and
mention no one else. -/
theorem settleLoop_net (fuel : Nat) :
    ∀ (ds cs : List MemberBal),
      ds.length + cs.length ≤ fuel →
      ((ds ++ cs).map MemberBal.id).Nodup →
      (∀ d ∈ ds, d.balance ≤ -(1 / 100)) →
      (∀ c ∈ cs, (1 : ℚ) / 100 ≤ c.balance) →
      (∀ b ∈ ds ++ cs, Cent b.balance) →
      sumBalances ds + sumBalances cs = 0 →
      (∀ b ∈ ds ++ cs, netAmount (settleLoop fuel ds cs) b.id = -b.balance) ∧
      (∀ i, i ∉ (ds ++ cs).map MemberBal.id →
        netAmount (settleLoop fuel ds cs) i = 0) := by
  induction fuel with
  | zero =>
      intro ds cs hlen hnd hd hc hcent hsum
      have hds : ds = [] := List.length_eq_zero.mp (by omega)
      have hcs : cs = [] := List.length_eq_zero.mp (by omega)
      subst hds
      subst hcs
      exact ⟨fun b hb => by simp at hb, fun i _ => rfl⟩
  | succ fuel ih =>
      intro ds cs hlen hnd hd hc hcent hsum
      cases ds with
      | nil =>
          have hcs : cs = [] := by
            by_contra hne
            have hpos := sumBalances_pos_of_nonempty cs hc hne
            have h0 : sumBalances ([] : List MemberBal) = 0 := rfl
            rw [h0] at hsum
            linarith
          subst hcs
          refine ⟨fun b hb => by simp at hb, fun i _ => ?_⟩
          rw [settleLoop_nil_left]
          rfl
      | cons d ds' =>
        cases cs with
        | nil =>
            exfalso
            have hneg := sumBalances_neg_of_nonempty (d :: ds') hd (by simp)
            have h0 : sumBalances ([] : List MemberBal) = 0 := rfl
            rw [h0] at hsum
            linarith
        | cons c cs' =>
          have hd0 : d.balance ≤ -(1 / 100) := hd d (List.mem_cons_self d ds')
          have hc0 : (1 : ℚ) / 100 ≤ c.balance := hc c (List.mem_cons_self c cs')
          have hcentd : Cent d.balance := hcent d (by simp)
          have hcentc : Cent c.balance :=
            hcent c (List.mem_append_right _ (List.mem_cons_self c cs'))
          have hndflat : ((d :: (ds' ++ c :: cs')).map MemberBal.id).Nodup := by
            simpa [List.cons_append] using hnd
          rw [List.map_cons, List.nodup_cons] at hndflat
          obtain ⟨hdnotin, hndrest⟩ := hndflat
          have hdc : d.id ≠ c.id := by
            intro he
            exact hdnotin (by rw [he]; simp)
          have hdds : d.id ∉ ds'.map MemberBal.id := by
            intro hm
            exact hdnotin (by simp [hm])
          have hdcs : d.id ∉ cs'.map MemberBal.id := by
            intro hm
            exact hdnotin (by simp [hm])
          have hndrest' := hndrest
          rw [List.map_append, List.nodup_append] at hndrest'
          obtain ⟨hnds', hndc, hdisj⟩ := hndrest'
          have hcds : c.id ∉ ds'.map MemberBal.id := by
            intro hm
            exact hdisj hm (by simp)
          rw [List.map_cons, List.nodup_cons] at hndc
          obtain ⟨hccs, hndcs'⟩ := hndc
          have hnd_rm_both : ((ds' ++ cs').map MemberBal.id).Nodup := by
            have hsub : List.Sublist (ds' ++ cs') (ds' ++ c :: cs') :=
              List.Sublist.append_left (List.sublist_cons_self c cs') ds'
            exact hndrest.sublist (hsub.map MemberBal.id)
          have hsum' : d.balance + sumBalances ds' +
              (c.balance + sumBalances cs') = 0 := by
            rw [sumBalances_cons, sumBalances_cons] at hsum
            linarith
          have hcent_rest : ∀ b ∈ ds' ++ cs', Cent b.balance := by
            intro b hb
            rcases List.mem_append.mp hb with h1 | h1
            · exact hcent b (List.mem_append_left _ (List.mem_cons_of_mem d h1))
            · exact hcent b (List.mem_append_right _ (List.mem_cons_of_mem c h1))
          simp only [List.length_cons] at hlen
          rcases le_total (-d.balance) c.balance with hmin | hmin
          · rw [settleLoop_succ, min_eq_left hmin]
            have hdrm : |d.balance + -d.balance| < (1 : ℚ) / 100 := by
              have h0 : d.balance + -d.balance = 0 := by ring
              rw [h0]
              norm_num
            rw [if_pos hdrm]
            by_cases hcr : |c.balance - -d.balance| < 1 / 100
            · rw [if_pos hcr]
              have hc2 : c.balance - -d.balance = 0 :=
                (hcentc.sub hcentd.neg).eq_zero_of_abs_lt hcr
              obtain ⟨IH1, IH2⟩ := ih ds' cs' (by omega) hnd_rm_both
                (fun x hx => hd x (List.mem_cons_of_mem d hx))
                (fun x hx => hc x (List.mem_cons_of_mem c hx))
                hcent_rest (by linarith)
              refine settleNet_assemble d c (-d.balance) _ ds' cs' hdc hdds
                hdcs hcds hccs IH1 ?_ ?_ ?_
              · rw [IH2 d.id (by
                  simp only [List.map_append, List.mem_append]
                  push_neg
                  exact ⟨hdds, hdcs⟩)]
                ring
              · rw [IH2 c.id (by
                  simp only [List.map_append, List.mem_append]
                  push_neg
                  exact ⟨hcds, hccs⟩)]
                linarith
              · intro i _ _ hi1 hi2
                exact IH2 i (by
                  simp only [List.map_append, List.mem_append]
                  push_neg
                  exact ⟨hi1, hi2⟩)
            · rw [if_neg hcr]
              have hge0 : 0 ≤ c.balance - -d.balance := by linarith
              have hc2ge : (1 : ℚ) / 100 ≤ c.balance - -d.balance := by
                rw [abs_of_nonneg hge0] at hcr
                push_neg at hcr
                linarith
              obtain ⟨IH1, IH2⟩ := ih ds'
                (⟨c.id, c.name, c.balance - -d.balance⟩ :: cs')
                (by simp only [List.length_cons]; omega)
                (by
                  have hmapeq : ((ds' ++
                      ⟨c.id, c.name, c.balance - -d.balance⟩ :: cs').map
                        MemberBal.id) =
                      ((ds' ++ c :: cs').map MemberBal.id) := by
                    simp
                  rw [hmapeq]
                  exact hndrest)
                (fun x hx => hd x (List.mem_cons_of_mem d hx))
                (by
                  intro x hx
                  rcases List.mem_cons.mp hx with h1 | h1
                  · subst h1
                    exact hc2ge
                  · exact hc x (List.mem_cons_of_mem c h1))
                (by
                  intro b hb
                  rcases List.mem_append.mp hb with h1 | h1
                  · exact hcent b
                      (List.mem_append_left _ (List.mem_cons_of_mem d h1))
                  · rcases List.mem_cons.mp h1 with h2 | h2
                    · subst h2
                      exact hcentc.sub hcentd.neg
                    · exact hcent b
                        (List.mem_append_right _ (List.mem_cons_of_mem c h2)))
                (by
                  rw [sumBalances_cons]
                  show sumBalances ds' +
                    (c.balance - -d.balance + sumBalances cs') = 0
                  linarith)
              refine settleNet_assemble d c (-d.balance) _ ds' cs' hdc hdds
                hdcs hcds hccs ?_ ?_ ?_ ?_
              · intro b hb
                rcases List.mem_append.mp hb with h1 | h1
                · exact IH1 b (List.mem_append_left _ h1)
                · exact IH1 b
                    (List.mem_append_right _ (List.mem_cons_of_mem _ h1))
              · rw [IH2 d.id (by
                  simp only [List.map_append, List.map_cons, List.mem_append,
                    List.mem_cons]
                  push_neg
                  exact ⟨hdds, hdc, hdcs⟩)]
                ring
              · have hreduce : netAmount (settleLoop fuel ds'
                    (⟨c.id, c.name, c.balance - -d.balance⟩ :: cs')) c.id =
                    -(c.balance - -d.balance) :=
                  IH1 ⟨c.id, c.name, c.balance - -d.balance⟩
                    (List.mem_append_right _ (List.mem_cons_self _ _))
                rw [hreduce]
                ring
              · intro i hid hic hi1 hi2
                exact IH2 i (by
                  simp only [List.map_append, List.map_cons, List.mem_append,
                    List.mem_cons]
                  push_neg
                  exact ⟨hi1, hic, hi2⟩)
          · rw [settleLoop_succ, min_eq_right hmin]
            have hcrm : |c.balance - c.balance| < (1 : ℚ) / 100 := by
              have h0 : c.balance - c.balance = 0 := by ring
              rw [h0]
              norm_num
            rw [if_pos hcrm]
            by_cases hdr : |d.balance + c.balance| < 1 / 100
            · rw [if_pos hdr]
              have hd2 : d.balance + c.balance = 0 :=
                (hcentd.add hcentc).eq_zero_of_abs_lt hdr
              obtain ⟨IH1, IH2⟩ := ih ds' cs' (by omega) hnd_rm_both
                (fun x hx => hd x (List.mem_cons_of_mem d hx))
                (fun x hx => hc x (List.mem_cons_of_mem c hx))
                hcent_rest (by linarith)
              refine settleNet_assemble d c c.balance _ ds' cs' hdc hdds
                hdcs hcds hccs IH1 ?_ ?_ ?_
              · rw [IH2 d.id (by
                  simp only [List.map_append, List.mem_append]
                  push_neg
                  exact ⟨hdds, hdcs⟩)]
                linarith
              · rw [IH2 c.id (by
                  simp only [List.map_append, List.mem_append]
                  push_neg
                  exact ⟨hcds, hccs⟩)]
                ring
              · intro i _ _ hi1 hi2
                exact IH2 i (by
                  simp only [List.map_append, List.mem_append]
                  push_neg
                  exact ⟨hi1, hi2⟩)
            · rw [if_neg hdr]
              have hle0 : d.balance + c.balance ≤ 0 := by linarith
              have hd2le : d.balance + c.balance ≤ -(1 / 100) := by
                rw [abs_of_nonpos hle0] at hdr
                push_neg at hdr
                linarith
              obtain ⟨IH1, IH2⟩ := ih
                (⟨d.id, d.name, d.balance + c.balance⟩ :: ds') cs'
                (by simp only [List.length_cons]; omega)
                (by
                  simp only [List.cons_append, List.map_cons, List.nodup_cons]
                  constructor
                  · intro hm
                    rcases List.mem_map.mp hm with ⟨x, hx, hxe⟩
                    rcases List.mem_append.mp hx with h1 | h1
                    · exact hdds (hxe ▸ List.mem_map_of_mem MemberBal.id h1)
                    · exact hdcs (hxe ▸ List.mem_map_of_mem MemberBal.id h1)
                  · exact hnd_rm_both)
                (by
                  intro x hx
                  rcases List.mem_cons.mp hx with h1 | h1
                  · subst h1
                    exact hd2le
                  · exact hd x (List.mem_cons_of_mem d h1))
                (fun x hx => hc x (List.mem_cons_of_mem c hx))
                (by
                  intro b hb
                  rcases List.mem_append.mp hb with h1 | h1
                  · rcases List.mem_cons.mp h1 with h2 | h2
                    · subst h2
                      exact hcentd.add hcentc
                    · exact hcent b
                        (List.mem_append_left _ (List.mem_cons_of_mem d h2))
                  · exact hcent b
                      (List.mem_append_right _ (List.mem_cons_of_mem c h1)))
                (by
                  rw [sumBalances_cons]
                  show d.balance + c.balance + sumBalances ds' +
                    sumBalances cs' = 0
                  linarith)
              refine settleNet_assemble d c c.balance _ ds' cs' hdc hdds
                hdcs hcds hccs ?_ ?_ ?_ ?_
              · intro b hb
                rcases List.mem_append.mp hb with h1 | h1
                · exact IH1 b
                    (List.mem_append_left _ (List.mem_cons_of_mem _ h1))
                · exact IH1 b (List.mem_append_right _ h1)
              · have hreduce : netAmount (settleLoop fuel
                    (⟨d.id, d.name, d.balance + c.balance⟩ :: ds') cs') d.id =
                    -(d.balance + c.balance) :=
                  IH1 ⟨d.id, d.name, d.balance + c.balance⟩
                    (List.mem_append_left _ (List.mem_cons_self _ _))
                rw [hreduce]
                ring
              · rw [IH2 c.id (by
                  simp only [List.cons_append, List.map_cons, List.map_append,
                    List.mem_cons, List.mem_append]
                  push_neg
                  refine ⟨Ne.symm hdc, ?_⟩
                  exact ⟨hcds, hccs⟩)]
                ring
              · intro i hid hic hi1 hi2
                exact IH2 i (by
                  simp only [List.cons_append, List.map_cons, List.map_append,
                    List.mem_cons, List.mem_append]
                  push_neg
                  exact ⟨hid, hi1, hi2⟩)

theorem filter_sign_sum (bs : List MemberBal) :
    sumBalances (bs.filter (fun m => m.balance < 0)) +
      sumBalances (bs.filter (fun m => 0 < m.balance)) = sumBalances bs := by
  induction bs with
  | nil => simp [sumBalances]
  | cons b t ih =>
      rcases lt_trichotomy b.balance 0 with h | h | h
      · have h1 : ¬ (0 < b.balance) := by linarith
        simp only [List.filter_cons, decide_eq_true_eq, if_pos h, if_neg h1,
          sumBalances_cons]
        linarith
      · have h1 : ¬ (b.balance < 0) := by rw [h]; norm_num
        have h2 : ¬ (0 < b.balance) := by rw [h]; norm_num
        simp only [List.filter_cons, decide_eq_true_eq, if_neg h1, if_neg h2,
          sumBalances_cons]
        linarith
      · have h1 : ¬ (b.balance < 0) := by linarith
        simp only [List.filter_cons, decide_eq_true_eq, if_neg h1, if_pos h,
          sumBalances_cons]
        linarith

/-- Claim C3 (amended): with the entry's effect applied in the code's
direction (the "from" debtor's balance increases by the amount, the "to"
creditor's decreases), and for inputs whose balances are whole cents with
distinct member ids and zero sum, applying all entries of
`calculateSettlements` drives every balance to within 0.01 of zero (in fact
exactly to zero). -/
theorem claim_C3 (balances : List MemberBal)
    (hnd : (balances.map MemberBal.id).Nodup)
    (hcent : ∀ b ∈ balances, Cent b.balance)
    (hsum : sumBalances balances = 0) :
    ∀ b ∈ applyEntries (calculateSettlements balances) balances,
      |b.balance| < 1 / 100 := by
  have hinj : ∀ x ∈ balances, ∀ y ∈ balances, x.id = y.id → x = y :=
    List.inj_on_of_nodup_map hnd
  set fd := balances.filter (fun m => m.balance < 0) with hfd
  set fc := balances.filter (fun m => 0 < m.balance) with hfc
  set ds := sortAsc fd with hds
  set cs := sortDesc fc with hcs
  have hpermd : ds.Perm fd := sortAsc_perm fd
  have hpermc : cs.Perm fc := sortDesc_perm fc
  have hmem_d : ∀ x, x ∈ ds ↔ (x ∈ balances ∧ x.balance < 0) := by
    intro x
    rw [hpermd.mem_iff, hfd, List.mem_filter]
    simp
  have hmem_c : ∀ x, x ∈ cs ↔ (x ∈ balances ∧ 0 < x.balance) := by
    intro x
    rw [hpermc.mem_iff, hfc, List.mem_filter]
    simp
  have hnodup_d : (ds.map MemberBal.id).Nodup := by
    rw [(hpermd.map MemberBal.id).nodup_iff, hfd]
    exact hnd.sublist ((List.filter_sublist balances).map MemberBal.id)
  have hnodup_c : (cs.map MemberBal.id).Nodup := by
    rw [(hpermc.map MemberBal.id).nodup_iff, hfc]
    exact hnd.sublist ((List.filter_sublist balances).map MemberBal.id)
  have hdisj : (ds.map MemberBal.id).Disjoint (cs.map MemberBal.id) := by
    intro i hi1 hi2
    rcases List.mem_map.mp hi1 with ⟨x, hx, hxe⟩
    rcases List.mem_map.mp hi2 with ⟨y, hy, hye⟩
    have hx' := (hmem_d x).mp hx
    have hy' := (hmem_c y).mp hy
    have hxy : x = y := hinj x hx'.1 y hy'.1 (by rw [hxe, hye])
    rw [hxy] at hx'
    linarith [hx'.2, hy'.2]
  have hnodup : ((ds ++ cs).map MemberBal.id).Nodup := by
    rw [List.map_append, List.nodup_append]
    exact ⟨hnodup_d, hnodup_c, hdisj⟩
  have hdneg : ∀ d ∈ ds, d.balance ≤ -(1 / 100) := by
    intro d hdm
    have h := (hmem_d d).mp hdm
    exact (hcent d h.1).le_neg_of_neg h.2
  have hcpos : ∀ c ∈ cs, (1 : ℚ) / 100 ≤ c.balance := by
    intro c hcm
    have h := (hmem_c c).mp hcm
    exact (hcent c h.1).le_pos_of_pos h.2
  have hcent2 : ∀ b ∈ ds ++ cs, Cent b.balance := by
    intro b hb
    rcases List.mem_append.mp hb with h | h
    · exact hcent b ((hmem_d b).mp h).1
    · exact hcent b ((hmem_c b).mp h).1
  have h1 : sumBalances ds = sumBalances fd :=
    (hpermd.map MemberBal.balance).sum_eq
  have h2 : sumBalances cs = sumBalances fc :=
    (hpermc.map MemberBal.balance).sum_eq
  have hfs := filter_sign_sum balances
  rw [← hfd, ← hfc] at hfs
  have hsum2 : sumBalances ds + sumBalances cs = 0 := by
    rw [h1, h2]
    linarith
  obtain ⟨NET1, NET2⟩ := settleLoop_net (ds.length + cs.length) ds cs le_rfl
    hnodup hdneg hcpos hcent2 hsum2
  have hentries : calculateSettlements balances =
      settleLoop (ds.length + cs.length) ds cs := rfl
  intro b hb
  rw [applyEntries_eq_map] at hb
  rcases List.mem_map.mp hb with ⟨b0, hb0, hbe⟩
  subst hbe
  show |b0.balance + netAmount (calculateSettlements balances) b0.id| < 1 / 100
  rw [hentries]
  rcases lt_trichotomy b0.balance 0 with h | h | h
  · have hin : b0 ∈ ds := (hmem_d b0).mpr ⟨hb0, h⟩
    rw [NET1 b0 (List.mem_append_left _ hin)]
    norm_num
  · have hnot : b0.id ∉ (ds ++ cs).map MemberBal.id := by
      intro hmem
      rcases List.mem_map.mp hmem with ⟨x, hx, hxe⟩
      rcases List.mem_append.mp hx with hx1 | hx1
      · have hx' := (hmem_d x).mp hx1
        have hxb : x = b0 := hinj x hx'.1 b0 hb0 hxe
        rw [hxb] at hx'
        linarith [hx'.2]
      · have hx' := (hmem_c x).mp hx1
        have hxb : x = b0 := hinj x hx'.1 b0 hb0 hxe
        rw [hxb] at hx'
        linarith [hx'.2]
    rw [NET2 b0.id hnot, h]
    norm_num
  · have hin : b0 ∈ cs := (hmem_c b0).mpr ⟨hb0, h⟩
    rw [NET1 b0 (List.mem_append_right _ hin)]
    norm_num

theorem claim_C3_witness :
    |(MemberBal.balance ⟨"a", "A", 0⟩)| < 1 / 100 :=
  claim_C3 [⟨"a", "A", -(3 / 2)⟩, ⟨"b", "B", 3 / 2⟩]
    (by decide)
    (by
      intro b hb
      rcases List.mem_cons.mp hb with h | h
      · subst h
        exact ⟨-150, by norm_num⟩
      · rcases List.mem_cons.mp h with h2 | h2
        · subst h2
          exact ⟨150, by norm_num⟩
        · simp at h2)
    (by norm_num [sumBalances])
    ⟨"a", "A", 0⟩
    (by norm_num +decide [applyEntries, applyEntry, calculateSettlements,
      sortAsc, sortDesc, insertAsc, insertDesc, settleLoop, netAmount,
      entryDelta])

/-- Claim C3 as stated is false: applying the entries by subtracting from the
"from" member and adding to the "to" member moves balances away from zero.
For balances [-30, 30] the single emitted entry (from the debtor to the
creditor, amount 30) leaves the debtor at -60 under that reading. -/
theorem claim_C3_cex :
    ¬ (∀ b ∈ applyEntriesSpec
        (calculateSettlements [⟨"a", "A", -30⟩, ⟨"b", "B", 30⟩])
        [⟨"a", "A", -30⟩, ⟨"b", "B", 30⟩],
        |b.balance| ≤ 1 / 100) := by
  intro h
  have heval : applyEntriesSpec
      (calculateSettlements [⟨"a", "A", -30⟩, ⟨"b", "B", 30⟩])
      [⟨"a", "A", -30⟩, ⟨"b", "B", 30⟩] =
      [⟨"a", "A", -60⟩, ⟨"b", "B", 60⟩] := by
    norm_num +decide [calculateSettlements, sortAsc, sortDesc, insertAsc,
      insertDesc, settleLoop, applyEntriesSpec, applyEntrySpec]
  rw [heval] at h
  have h2 := h ⟨"a", "A", -60⟩ (List.mem_cons_self _ _)
  rw [show |((⟨"a", "A", -60⟩ : MemberBal)).balance| = 60 from by
    rw [show ((⟨"a", "A", -60⟩ : MemberBal)).balance = -60 from rfl]
    rw [abs_of_nonpos (by norm_num)]
    norm_num] at h2
  norm_num at h2
